import Mathlib

/-!
Verification of the RAWSim-O experiment-launcher scripts
(`Material/Scripts/paralledExperiments.py`, `oneExperiment.py`,
`fixFootprints.py`) against their natural-language specification.

The bounded subprocess launcher is embedded as a state machine:
`LState` holds the dispatch cursor (`NextURLNo`) and the Active Process
Set (`Processes`), represented by the dispatch indices of its members in
list order (oldest first, matching the Python list to which `StartNew`
appends).  The OS is abstracted by a poll oracle `f : Nat → Option Int`
(per reap pass): `f i = none` means the process of dispatch `i` has not
exited, `some c` means it exited with code `c`.
-/

/-- Launcher state: the dispatch cursor `NextURLNo` and the list
`procs` of dispatch indices of the Active Process Set (`Processes`),
oldest first. -/
structure LState where
  nextNo : Nat
  procs : List Nat
deriving Repr, DecidableEq

/-- Embedding of `StartNew` (state part): spawn the job at the cursor,
append its handle to `Processes`, advance the cursor by one. -/
def StartNew (s : LState) : LState :=
  ⟨s.nextNo + 1, s.procs ++ [s.nextNo]⟩

/-- Embedding of the reap loop of `CheckRunning`:
`for p in range(-len(Processes), 0): if Processes[p].poll() is not None: del Processes[p]`.
The fuel `k` counts the remaining iterations (the loop runs exactly
`len(Processes)` times over the fixed range of negative indices); the
negative index `-k` denotes position `ps.length - k` of the current
list.  Returns (surviving list, poll trace in poll order, the list of
intermediate values of `Processes` after each iteration). -/
def reapIter (f : Nat → Option Int) : Nat → List Nat → List Nat × List Nat × List (List Nat)
  | 0, ps => (ps, [], [])
  | k + 1, ps =>
    match ps[ps.length - (k + 1)]? with
    | none => (ps, [], [])
    | some x =>
      if (f x).isSome then
        let r := reapIter f k (ps.eraseIdx (ps.length - (k + 1)))
        (r.1, x :: r.2.1, (ps.eraseIdx (ps.length - (k + 1))) :: r.2.2)
      else
        let r := reapIter f k ps
        (r.1, x :: r.2.1, ps :: r.2.2)

/-- One full reap pass over the Active Process Set. -/
def reap (f : Nat → Option Int) (ps : List Nat) : List Nat × List Nat × List (List Nat) :=
  reapIter f ps.length ps

/-- Embedding of the refill loop of `CheckRunning`:
`while len(Processes) < ParalleledNum and NextURLNo < len(cmds): time.sleep(1); StartNew()`.
The fuel bounds the iteration count by `total - nextNo`, which is exact:
the loop body runs only while `nextNo < total` and increments `nextNo`.
Returns (final state, dispatch log of this refill, the intermediate
states observed before each loop test). -/
def refillAux (N total : Nat) : Nat → LState → LState × List Nat × List LState
  | 0, s => (s, [], [s])
  | fuel + 1, s =>
    if s.procs.length < N ∧ s.nextNo < total then
      let r := refillAux N total fuel (StartNew s)
      (r.1, s.nextNo :: r.2.1, s :: r.2.2)
    else (s, [], [s])

/-- The refill loop, run to completion from state `s`. -/
def refill (N total : Nat) (s : LState) : LState :=
  (refillAux N total (total - s.nextNo) s).1

/-- Embedding of `CheckRunning`: reap the exited processes, then refill
the spare slots from the queue. -/
def CheckRunning (N total : Nat) (f : Nat → Option Int) (s : LState) : LState :=
  refill N total ⟨s.nextNo, (reap f s.procs).1⟩

/-- The launcher's initial state: nothing dispatched, no live process. -/
def initState : LState := ⟨0, []⟩

/-- Embedding of the driving loop of `__main__`: `runMain N total F k`
is the state after the `(k+1)`-st call to `CheckRunning`, where the
pass with index `k` polls with the oracle `F k`. -/
def runMain (N total : Nat) (F : Nat → Nat → Option Int) : Nat → LState
  | 0 => CheckRunning N total (F 0) initState
  | k + 1 => CheckRunning N total (F (k + 1)) (runMain N total F k)

example : runMain 2 4 (fun _ _ => none) 0 = ⟨2, [0, 1]⟩ := by decide
example :
    runMain 2 4 (fun k i => if k = 1 ∧ i = 0 then some 0 else none) 1 = ⟨3, [1, 2]⟩ := by
  decide

/-- A process is reported still running when the non-blocking poll
yields no exit code (`poll() is None`). -/
def stillRunning (f : Nat → Option Int) : Nat → Bool := fun x => (f x).isNone

theorem getElem?_append_middle (acc : List Nat) (x : Nat) (xs : List Nat) :
    (acc ++ x :: xs)[acc.length]? = some x := by
  rw [List.getElem?_append_right (Nat.le_refl _)]
  simp

theorem reapIter_main (f : Nat → Option Int) :
    ∀ (ps acc : List Nat),
      (reapIter f ps.length (acc ++ ps)).1 = acc ++ ps.filter (stillRunning f) ∧
      (reapIter f ps.length (acc ++ ps)).2.1 = ps := by
  intro ps
  induction ps with
  | nil => intro acc; simp [reapIter]
  | cons x xs ih =>
    intro acc
    have hidx : (acc ++ x :: xs).length - (xs.length + 1) = acc.length := by
      simp
    have hget : (acc ++ x :: xs)[(acc ++ x :: xs).length - (xs.length + 1)]? = some x := by
      rw [hidx]; exact getElem?_append_middle acc x xs
    have herase : (acc ++ x :: xs).eraseIdx acc.length = acc ++ xs := by
      rw [List.eraseIdx_append_of_length_le (Nat.le_refl _)]
      simp
    show (reapIter f (xs.length + 1) (acc ++ x :: xs)).1 = _ ∧
      (reapIter f (xs.length + 1) (acc ++ x :: xs)).2.1 = _
    rw [reapIter, hget]
    by_cases hfx : (f x).isSome
    · simp only [hfx, if_pos, hidx, herase]
      have := ih acc
      have hnone : (f x).isNone = false := by
        cases hfo : f x with
        | none => rw [hfo] at hfx; simp at hfx
        | some c => simp
      have hfilter : (x :: xs).filter (stillRunning f) = xs.filter (stillRunning f) := by
        rw [List.filter_cons]
        simp [stillRunning, hnone]
      rw [hfilter]
      exact ⟨this.1, by rw [this.2]⟩
    · simp only [hfx, if_neg, Bool.false_eq_true, not_false_iff]
      have := ih (acc ++ [x])
      rw [List.append_assoc, List.singleton_append] at this
      have hnone : (f x).isNone = true := by
        cases hfo : f x with
        | none => simp
        | some c => rw [hfo] at hfx; simp at hfx
      have hfilter : (x :: xs).filter (stillRunning f) = x :: xs.filter (stillRunning f) := by
        rw [List.filter_cons]
        simp [stillRunning, hnone]
      rw [hfilter]
      constructor
      · rw [this.1, List.append_assoc, List.singleton_append]
      · rw [this.2]

theorem reap_fst (f : Nat → Option Int) (ps : List Nat) :
    (reap f ps).1 = ps.filter (stillRunning f) := by
  have := (reapIter_main f ps []).1
  simpa [reap] using this

theorem reap_trace (f : Nat → Option Int) (ps : List Nat) :
    (reap f ps).2.1 = ps := by
  have := (reapIter_main f ps []).2
  simpa [reap] using this

theorem reapIter_states_le (f : Nat → Option Int) :
    ∀ (k : Nat) (ps : List Nat), ∀ l ∈ (reapIter f k ps).2.2, l.length ≤ ps.length := by
  intro k
  induction k with
  | zero => intro ps l hl; simp [reapIter] at hl
  | succ k ih =>
    intro ps l hl
    rw [reapIter] at hl
    cases hx : ps[ps.length - (k + 1)]? with
    | none => rw [hx] at hl; simp at hl
    | some x =>
      rw [hx] at hl
      by_cases hfx : (f x).isSome
      · simp only [hfx, if_pos] at hl
        rcases List.mem_cons.1 hl with h | h
        · subst h; exact List.length_eraseIdx_le ps _
        · exact Nat.le_trans (ih _ l h) (List.length_eraseIdx_le ps _)
      · simp only [hfx, Bool.false_eq_true, if_neg, not_false_iff] at hl
        rcases List.mem_cons.1 hl with h | h
        · subst h; exact Nat.le_refl _
        · exact ih _ l h

/-- Number of dispatches one refill performs from state `s`: the loop
stops at whichever of the two guards fails first. -/
def refillCount (N total : Nat) (s : LState) : Nat :=
  min (N - s.procs.length) (total - s.nextNo)

theorem refillAux_spec (N total : Nat) :
    ∀ (fuel : Nat) (s : LState), total - s.nextNo ≤ fuel →
      (refillAux N total fuel s).1 =
        ⟨s.nextNo + refillCount N total s,
          s.procs ++ List.range' s.nextNo (refillCount N total s)⟩ ∧
      (refillAux N total fuel s).2.1 = List.range' s.nextNo (refillCount N total s) := by
  intro fuel
  induction fuel with
  | zero =>
    intro s hs
    have hm : refillCount N total s = 0 := by unfold refillCount; omega
    rw [refillAux, hm]
    simp
  | succ fuel ih =>
    intro s hs
    rw [refillAux]
    by_cases hcond : s.procs.length < N ∧ s.nextNo < total
    · rw [if_pos hcond]
      have hrec := ih (StartNew s) (by unfold StartNew; simp; omega)
      have hm : refillCount N total s = refillCount N total (StartNew s) + 1 := by
        unfold refillCount StartNew
        simp
        omega
      constructor
      · show (refillAux N total fuel (StartNew s)).1 = _
        rw [hrec.1, hm, List.range'_succ]
        unfold StartNew
        simp [List.append_assoc]
        omega
      · show s.nextNo :: (refillAux N total fuel (StartNew s)).2.1 = _
        rw [hrec.2, hm, List.range'_succ]
        unfold StartNew
        simp
    · rw [if_neg hcond]
      have hm : refillCount N total s = 0 := by unfold refillCount; omega
      rw [hm]
      simp

theorem refill_spec (N total : Nat) (s : LState) :
    refill N total s =
      ⟨s.nextNo + refillCount N total s,
        s.procs ++ List.range' s.nextNo (refillCount N total s)⟩ :=
  (refillAux_spec N total (total - s.nextNo) s (Nat.le_refl _)).1

theorem refillAux_states_le (N total : Nat) :
    ∀ (fuel : Nat) (s : LState), s.procs.length ≤ N →
      ∀ u ∈ (refillAux N total fuel s).2.2, u.procs.length ≤ N := by
  intro fuel
  induction fuel with
  | zero =>
    intro s hs u hu
    rw [refillAux] at hu
    simp at hu
    subst hu; exact hs
  | succ fuel ih =>
    intro s hs u hu
    rw [refillAux] at hu
    by_cases hcond : s.procs.length < N ∧ s.nextNo < total
    · rw [if_pos hcond] at hu
      rcases List.mem_cons.1 hu with h | h
      · subst h; exact hs
      · refine ih (StartNew s) ?_ u h
        unfold StartNew
        simp
        omega
    · rw [if_neg hcond] at hu
      simp at hu
      subst hu; exact hs

/-- All observation points of one `CheckRunning` call from state `s`:
the intermediate Active Process Set values seen between iterations of
the reap loop, followed by the states observed at each test of the
refill loop (including the state right after the reap and the final
state). -/
def passObs (N total : Nat) (f : Nat → Option Int) (s : LState) : List LState :=
  ((reap f s.procs).2.2.map (fun l => ⟨s.nextNo, l⟩))
    ++ (refillAux N total (total - s.nextNo) ⟨s.nextNo, (reap f s.procs).1⟩).2.2

/-- All observation points of the driving loop through pass `k`,
starting from the initial state. -/
def obsStates (N total : Nat) (F : Nat → Nat → Option Int) : Nat → List LState
  | 0 => initState :: passObs N total (F 0) initState
  | k + 1 => obsStates N total F k ++ passObs N total (F (k + 1)) (runMain N total F k)

theorem reap_fst_length_le (f : Nat → Option Int) (ps : List Nat) :
    (reap f ps).1.length ≤ ps.length := by
  rw [reap_fst]
  exact List.length_filter_le _ _

theorem CheckRunning_procs_le (N total : Nat) (f : Nat → Option Int) (s : LState)
    (hs : s.procs.length ≤ N) : (CheckRunning N total f s).procs.length ≤ N := by
  rw [CheckRunning, refill_spec]
  have h1 : (reap f s.procs).1.length ≤ N :=
    Nat.le_trans (reap_fst_length_le f s.procs) hs
  simp only [refillCount]
  simp
  omega

theorem runMain_procs_le (N total : Nat) (F : Nat → Nat → Option Int) :
    ∀ k, (runMain N total F k).procs.length ≤ N := by
  intro k
  induction k with
  | zero => exact CheckRunning_procs_le N total (F 0) initState (by simp [initState])
  | succ k ih => exact CheckRunning_procs_le N total (F (k + 1)) (runMain N total F k) ih

theorem passObs_procs_le (N total : Nat) (f : Nat → Option Int) (s : LState)
    (hs : s.procs.length ≤ N) : ∀ u ∈ passObs N total f s, u.procs.length ≤ N := by
  intro u hu
  rw [passObs] at hu
  rcases List.mem_append.1 hu with h | h
  · rcases List.mem_map.1 h with ⟨l, hl, hlu⟩
    have := reapIter_states_le f s.procs.length s.procs l hl
    rw [← hlu]
    exact Nat.le_trans this hs
  · refine refillAux_states_le N total _ _ ?_ u h
    exact Nat.le_trans (reap_fst_length_le f s.procs) hs

/-- C1: at every observation point of the driving loop and of
`CheckRunning` (between loop iterations of the reap loop and at every
test of the refill loop), the size of the Active Process Set is at most
the parallelism limit `N`: dispatch happens only while the size is
strictly below `N` and adds exactly one process. -/
theorem active_process_set_bounded (N total : Nat) (F : Nat → Nat → Option Int)
    (k : Nat) (s : LState) (hs : s ∈ obsStates N total F k) :
    s.procs.length ≤ N := by
  induction k with
  | zero =>
    rw [obsStates] at hs
    rcases List.mem_cons.1 hs with h | h
    · subst h; simp [initState]
    · exact passObs_procs_le N total (F 0) initState (by simp [initState]) s h
  | succ k ih =>
    rw [obsStates] at hs
    rcases List.mem_append.1 hs with h | h
    · exact ih h
    · exact passObs_procs_le N total (F (k + 1)) (runMain N total F k)
        (runMain_procs_le N total F k) s h

theorem active_process_set_bounded_witness :
    initState ∈ obsStates 2 4 (fun _ _ => none) 0 ∧ initState.procs.length ≤ 2 :=
  ⟨by decide, active_process_set_bounded 2 4 (fun _ _ => none) 0 initState (by decide)⟩

/-- C3 (amended): a single reap pass of `CheckRunning` iterates the
Active Process Set from oldest to newest (ascending negative indices,
which keep removal safe because a removed entry's successors retain
their negative indices), polls each member's process exactly once,
removes exactly those entries whose non-blocking exit check reports an
exit code, preserves the relative order of the surviving entries, and
never polls a handle again after it has been removed. -/
theorem reap_pass_spec (f : Nat → Option Int) (ps : List Nat) (h : ps.Nodup) :
    (reap f ps).1 = ps.filter (stillRunning f) ∧
    (reap f ps).2.1 = ps ∧
    (reap f ps).2.1.Nodup := by
  refine ⟨reap_fst f ps, reap_trace f ps, ?_⟩
  rw [reap_trace]
  exact h

theorem reap_pass_spec_witness :
    (reap (fun _ => none) [5, 7]).1 = [5, 7].filter (stillRunning (fun _ => none)) ∧
    (reap (fun _ => none) [5, 7]).2.1 = [5, 7] ∧
    (reap (fun _ => none) [5, 7]).2.1.Nodup :=
  reap_pass_spec (fun _ => none) [5, 7] (by decide)

/-- C3 counterexample: with two live processes appended in the order
5 then 7 (so 7 is the newest), the poll trace of a reap pass is
`[5, 7]`, i.e. oldest first — not `[7, 5]` as a newest-to-oldest
iteration would produce. -/
theorem reap_pass_not_newest_first :
    (reap (fun _ => none) [5, 7]).2.1 = [5, 7] ∧
    (reap (fun _ => none) [5, 7]).2.1 ≠ [7, 5] := by
  constructor
  · decide
  · decide

/-- The dispatch log of one `CheckRunning` call from state `s`: the
cursor values at which `StartNew` was called, in call order. -/
def passLog (N total : Nat) (f : Nat → Option Int) (s : LState) : List Nat :=
  (refillAux N total (total - s.nextNo) ⟨s.nextNo, (reap f s.procs).1⟩).2.1

/-- The dispatch log of the whole driving loop through pass `k`. -/
def runLog (N total : Nat) (F : Nat → Nat → Option Int) : Nat → List Nat
  | 0 => passLog N total (F 0) initState
  | k + 1 => runLog N total F k ++ passLog N total (F (k + 1)) (runMain N total F k)

theorem passLog_spec (N total : Nat) (f : Nat → Option Int) (s : LState) :
    passLog N total f s =
      List.range' s.nextNo (refillCount N total ⟨s.nextNo, (reap f s.procs).1⟩) :=
  (refillAux_spec N total (total - s.nextNo) ⟨s.nextNo, (reap f s.procs).1⟩
    (Nat.le_refl _)).2

theorem CheckRunning_state (N total : Nat) (f : Nat → Option Int) (s : LState) :
    CheckRunning N total f s =
      ⟨s.nextNo + refillCount N total ⟨s.nextNo, (reap f s.procs).1⟩,
        (reap f s.procs).1 ++
          List.range' s.nextNo (refillCount N total ⟨s.nextNo, (reap f s.procs).1⟩)⟩ := by
  rw [CheckRunning, refill_spec]

/-- C5: Jobs are dispatched in strict queue order: for every pass
count, the accumulated sequence of dispatched indices is exactly
`0, 1, 2, …` up to the current cursor — the cursor advances by one per
dispatch and no index is ever dispatched twice, whatever exit codes the
poll oracle reports. -/
theorem dispatch_strict_queue_order (N total : Nat) (F : Nat → Nat → Option Int)
    (n : Nat) : runLog N total F n = List.range (runMain N total F n).nextNo := by
  induction n with
  | zero =>
    rw [runLog, runMain, passLog_spec, CheckRunning_state]
    simp [initState, List.range_eq_range']
  | succ n ih =>
    rw [runLog, ih, passLog_spec]
    show _ = List.range (runMain N total F (n + 1)).nextNo
    rw [runMain, CheckRunning_state]
    rw [List.range_eq_range', List.range_eq_range']
    have h := List.range'_append_1 0 (runMain N total F n).nextNo
      (refillCount N total
        ⟨(runMain N total F n).nextNo, (reap (F (n + 1)) (runMain N total F n).procs).1⟩)
    simp only [Nat.zero_add] at h
    simpa [Nat.add_comm] using h

/-- C6: with parallelism limit 2 and a queue of four jobs A,B,C,D
(indices 0,1,2,3), the first `CheckRunning` makes exactly {A,B} active;
if A's process then exits while B's has not, the next `CheckRunning`
removes A and dispatches exactly C — the active set becomes {B,C} and
the dispatch log so far is [A,B,C]. -/
theorem scenario_limit2_queue4 :
    runMain 2 4 (fun k i => if k = 1 ∧ i = 0 then some 0 else none) 0 = ⟨2, [0, 1]⟩ ∧
    runMain 2 4 (fun k i => if k = 1 ∧ i = 0 then some 0 else none) 1 = ⟨3, [1, 2]⟩ ∧
    runLog 2 4 (fun k i => if k = 1 ∧ i = 0 then some 0 else none) 1 = [0, 1, 2] := by
  refine ⟨by decide, by decide, by decide⟩

theorem runMain_nextNo_le (N total : Nat) (F : Nat → Nat → Option Int) :
    ∀ k, (runMain N total F k).nextNo ≤ total := by
  have step : ∀ (f : Nat → Option Int) (s : LState), s.nextNo ≤ total →
      (CheckRunning N total f s).nextNo ≤ total := by
    intro f s hs
    rw [CheckRunning_state]
    simp only [refillCount]
    omega
  intro k
  induction k with
  | zero => exact step (F 0) initState (by simp [initState])
  | succ k ih => exact step (F (k + 1)) _ ih

theorem runMain_procs_lt (N total : Nat) (F : Nat → Nat → Option Int) :
    ∀ k, ∀ i ∈ (runMain N total F k).procs, i < (runMain N total F k).nextNo := by
  have step : ∀ (f : Nat → Option Int) (s : LState), (∀ i ∈ s.procs, i < s.nextNo) →
      ∀ i ∈ (CheckRunning N total f s).procs, i < (CheckRunning N total f s).nextNo := by
    intro f s hs i hi
    rw [CheckRunning_state] at hi ⊢
    simp only [List.mem_append] at hi
    simp only []
    rcases hi with h | h
    · rw [reap_fst] at h
      have hmem := (List.mem_filter.1 h).1
      have := hs i hmem
      omega
    · rw [List.mem_range'_1] at h
      omega
  intro k
  induction k with
  | zero =>
    exact step (F 0) initState (by intro i hi; simp [initState] at hi)
  | succ k ih => exact step (F (k + 1)) _ ih

theorem exists_uniform_exit (total : Nat) (F : Nat → Nat → Option Int)
    (H : ∀ i, i < total → ∃ K, ∀ k, K ≤ k → (F k i).isSome) :
    ∃ K, ∀ i, i < total → ∀ k, K ≤ k → (F k i).isSome := by
  induction total with
  | zero => exact ⟨0, fun i hi => absurd hi (Nat.not_lt_zero i)⟩
  | succ t ih =>
    obtain ⟨K1, hK1⟩ := ih (fun i hi => H i (Nat.lt_succ_of_lt hi))
    obtain ⟨K2, hK2⟩ := H t (Nat.lt_succ_self t)
    refine ⟨max K1 K2, fun i hi k hk => ?_⟩
    rcases Nat.lt_succ_iff_lt_or_eq.1 hi with h | h
    · exact hK1 i h k (Nat.le_trans (Nat.le_max_left _ _) hk)
    · subst h; exact hK2 k (Nat.le_trans (Nat.le_max_right _ _) hk)

theorem CheckRunning_all_exited (N total : Nat) (f : Nat → Option Int) (s : LState)
    (h : ∀ i ∈ s.procs, (f i).isSome) :
    CheckRunning N total f s =
      ⟨s.nextNo + min N (total - s.nextNo),
        List.range' s.nextNo (min N (total - s.nextNo))⟩ := by
  have hnil : (reap f s.procs).1 = [] := by
    rw [reap_fst, List.filter_eq_nil_iff]
    intro a ha
    have hsome := h a ha
    simp only [stillRunning]
    cases hfo : f a with
    | none => rw [hfo] at hsome; simp at hsome
    | some c => simp
  rw [CheckRunning_state, hnil]
  simp [refillCount]

theorem CheckRunning_empty_imp (N total : Nat) (f : Nat → Option Int) (s : LState)
    (hN : 0 < N) (hs : s.nextNo ≤ total)
    (h : (CheckRunning N total f s).procs = []) :
    (CheckRunning N total f s).nextNo = total := by
  rw [CheckRunning_state] at h ⊢
  simp only [] at h ⊢
  rcases List.append_eq_nil.1 h with ⟨h1, h2⟩
  rw [h1] at h2 ⊢
  simp [refillCount] at h2 ⊢
  omega

/-- C4: the driving loop terminates exactly when every enqueued job has
been dispatched and every dispatched process has been observed to exit.
If the parallelism limit is positive and every process eventually polls
as exited, some pass leaves the Active Process Set empty with the
cursor at the end of the queue (so the `while len(Processes) > 0` loop
ends); and conversely, whenever a pass leaves the Active Process Set
empty, no undispatched job remains. -/
theorem launcher_terminates_iff (N total : Nat) (F : Nat → Nat → Option Int)
    (hN : 0 < N)
    (H : ∀ i, i < total → ∃ K, ∀ k, K ≤ k → (F k i).isSome) :
    (∃ n, (runMain N total F n).procs = [] ∧ (runMain N total F n).nextNo = total) ∧
    (∀ n, (runMain N total F n).procs = [] → (runMain N total F n).nextNo = total) := by
  obtain ⟨K, hK⟩ := exists_uniform_exit total F H
  have hmem : ∀ k, ∀ i ∈ (runMain N total F k).procs, i < total := by
    intro k i hi
    exact Nat.lt_of_lt_of_le (runMain_procs_lt N total F k i hi)
      (runMain_nextNo_le N total F k)
  have hpass : ∀ k, K ≤ k + 1 → runMain N total F (k + 1) =
      ⟨(runMain N total F k).nextNo +
          min N (total - (runMain N total F k).nextNo),
        List.range' (runMain N total F k).nextNo
          (min N (total - (runMain N total F k).nextNo))⟩ := by
    intro k hk
    rw [runMain]
    exact CheckRunning_all_exited N total (F (k + 1)) _
      (fun i hi => hK i (hmem k i hi) (k + 1) hk)
  have hprog : ∀ j, min total j ≤ (runMain N total F (K + j)).nextNo := by
    intro j
    induction j with
    | zero => simp
    | succ j ih =>
      have hle := runMain_nextNo_le N total F (K + j)
      have heq : K + (j + 1) = (K + j) + 1 := by omega
      rw [heq, hpass (K + j) (by omega)]
      show min total (j + 1) ≤ (runMain N total F (K + j)).nextNo +
        min N (total - (runMain N total F (K + j)).nextNo)
      omega
  have hfull : (runMain N total F (K + total)).nextNo = total := by
    have h1 := hprog total
    have h2 := runMain_nextNo_le N total F (K + total)
    omega
  constructor
  · refine ⟨K + total + 1, ?_, ?_⟩
    · rw [hpass (K + total) (by omega), hfull]
      simp
    · rw [hpass (K + total) (by omega), hfull]
      simp
  · intro n hn
    cases n with
    | zero =>
      rw [runMain] at hn ⊢
      exact CheckRunning_empty_imp N total (F 0) initState hN (Nat.zero_le total) hn
    | succ m =>
      rw [runMain] at hn ⊢
      exact CheckRunning_empty_imp N total (F (m + 1)) _ hN
        (runMain_nextNo_le N total F m) hn

theorem launcher_terminates_iff_witness :
    (∃ n, (runMain 1 1 (fun _ _ => some 0) n).procs = [] ∧
      (runMain 1 1 (fun _ _ => some 0) n).nextNo = 1) ∧
    (∀ n, (runMain 1 1 (fun _ _ => some 0) n).procs = [] →
      (runMain 1 1 (fun _ _ => some 0) n).nextNo = 1) :=
  launcher_terminates_iff 1 1 (fun _ _ => some 0) (by decide)
    (fun _ _ => ⟨0, fun _ _ => rfl⟩)

/-- Drop the characters of a reversed name up to and including the
first 'r' (i.e. the last 'r' of the original name); `none` when no 'r'
occurs. The list core of Python `rsplit('r', 1)`. -/
def dropThroughR : List Char → Option (List Char)
  | [] => none
  | c :: cs => if c = 'r' then some cs else dropThroughR cs

/-- Embedding of `instance.rsplit('r', 1)[0]`: the part of the name
strictly before the last occurrence of 'r', or the whole name when 'r'
does not occur. -/
def rsplitR0 (s : String) : String :=
  match dropThroughR s.data.reverse with
  | some rest => String.mk rest.reverse
  | none => s

/-- Embedding of the output-directory construction of
`paralledExperiments.py`:
`outputDir = "{}\{}".format(experimentFolder, instance.rsplit('r', 1)[0])`. -/
def outputDir (experimentFolder inst : String) : String :=
  experimentFolder ++ "\\" ++ rsplitR0 inst

/-- Modelled from the spec: the claim's reading of the sanitisation —
strip a trailing "r<number>" suffix (an 'r' followed by a nonempty run
of digits at the very end of the name) and leave every other name
unchanged. -/
def specStripTrailingRNum (s : String) : String :=
  match s.data.reverse.takeWhile Char.isDigit, s.data.reverse.dropWhile Char.isDigit with
  | _ :: _, 'r' :: rest => String.mk rest.reverse
  | _, _ => s

theorem dropThroughR_no_r :
    ∀ (l tail : List Char), (∀ c ∈ l, c ≠ 'r') →
      dropThroughR (l ++ 'r' :: tail) = some tail := by
  intro l
  induction l with
  | nil => intro tail _; simp [dropThroughR]
  | cons c cs ih =>
    intro tail h
    have hc : c ≠ 'r' := h c (List.mem_cons_self c cs)
    show dropThroughR (c :: (cs ++ 'r' :: tail)) = some tail
    rw [dropThroughR, if_neg hc]
    exact ih tail (fun d hd => h d (List.mem_cons_of_mem c hd))

theorem rsplitR0_strips_last_r (base num : String)
    (h : ∀ c ∈ num.data, c.isDigit) :
    rsplitR0 (base ++ "r" ++ num) = base := by
  have hdata : (base ++ "r" ++ num).data = base.data ++ 'r' :: num.data := by
    simp [String.data_append]
  have hnor : ∀ c ∈ num.data.reverse, c ≠ 'r' := by
    intro c hc he
    have := h c (List.mem_reverse.1 hc)
    rw [he] at this
    exact absurd this (by decide)
  rw [rsplitR0, hdata]
  rw [show (base.data ++ 'r' :: num.data).reverse =
      num.data.reverse ++ 'r' :: base.data.reverse by simp]
  rw [dropThroughR_no_r num.data.reverse base.data.reverse hnor]
  simp

/-- C8 counterexample: the instance name "Servo" has no trailing
"r<number>" suffix, so the claim predicts an unchanged name; the code's
`rsplit('r', 1)[0]` instead cuts at the last 'r' and produces "Se". -/
theorem outputDir_claim_counterexample :
    outputDir "D:" "Servo" = "D:" ++ "\\" ++ "Se" ∧
    specStripTrailingRNum "Servo" = "Servo" ∧
    outputDir "D:" "Servo" ≠ "D:" ++ "\\" ++ specStripTrailingRNum "Servo" := by
  refine ⟨by decide, by decide, by decide⟩

/-- C8 (amended): the Job's output directory is the experiment root
joined with the portion of the instance name strictly before its last
'r' (the whole name when 'r' does not occur). For every name of the
form base ++ "r" ++ digits — in particular "Sv5r60", which yields
"Sv5" — this strips exactly the trailing "r<number>" suffix, so all
bot-count variants of one base instance map to the same directory. -/
theorem outputDir_strips_last_r (root base num : String)
    (h : ∀ c ∈ num.data, c.isDigit) :
    outputDir root (base ++ "r" ++ num) = root ++ "\\" ++ base := by
  rw [outputDir, rsplitR0_strips_last_r base num h]

theorem outputDir_strips_last_r_witness :
    outputDir "D:\\codes\\RAWSim-OData\\result0703" ("Sv5" ++ "r" ++ "60") =
      "D:\\codes\\RAWSim-OData\\result0703" ++ "\\" ++ "Sv5" :=
  outputDir_strips_last_r "D:\\codes\\RAWSim-OData\\result0703" "Sv5" "60" (by decide)

/-- One (instance, setting, controller) parameter combination, in the
order of the `FileNames` tuples. -/
abbrev Triple := String × String × String

/-- The four configured folder paths of `paralledExperiments.py`. -/
structure Folders where
  instanceFolder : String
  settingFolder : String
  controllerFolder : String
  experimentFolder : String

/-- Embedding of the body of the queue-construction loop: the command
list appended for one triple (the timestamp seed is appended later, at
dispatch time, not at enqueue time). -/
def mkCmd (F : Folders) (t : Triple) : List String :=
  ["dotnet", "run",
   F.instanceFolder ++ "\\" ++ t.1 ++ ".xlayo",
   F.settingFolder ++ "\\" ++ t.2.1 ++ ".xsett",
   F.controllerFolder ++ "\\" ++ t.2.2 ++ ".xconf",
   outputDir F.experimentFolder t.1]

/-- Embedding of the queue construction of `paralledExperiments.py`:
`for i in range(Iteration): for (instance, setting, controller) in FileNames: cmds.append([...])`.
Iteration `i` contributes the `i`-th block of commands, each block
enumerating the triples list in its given order. -/
def buildCmds (F : Folders) : Nat → List Triple → List (List String)
  | 0, _ => []
  | i + 1, fileNames => buildCmds F i fileNames ++ fileNames.map (mkCmd F)

theorem buildCmds_length (F : Folders) :
    ∀ (I : Nat) (fileNames : List Triple),
      (buildCmds F I fileNames).length = I * fileNames.length := by
  intro I
  induction I with
  | zero => intro fileNames; simp [buildCmds]
  | succ I ih =>
    intro fileNames
    rw [buildCmds]
    simp [ih, Nat.succ_mul]

theorem buildCmds_get (F : Folders) :
    ∀ (I : Nat) (fileNames : List Triple) (i t : Nat), i < I → t < fileNames.length →
      (buildCmds F I fileNames)[i * fileNames.length + t]? =
        (fileNames[t]?).map (mkCmd F) := by
  intro I
  induction I with
  | zero => intro fileNames i t hi _; exact absurd hi (Nat.not_lt_zero i)
  | succ I ih =>
    intro fileNames i t hi ht
    rw [buildCmds]
    by_cases hiI : i < I
    · rw [List.getElem?_append_left]
      · exact ih fileNames i t hiI ht
      · rw [buildCmds_length]
        calc i * fileNames.length + t
            < i * fileNames.length + fileNames.length := Nat.add_lt_add_left ht _
          _ = (i + 1) * fileNames.length := (Nat.succ_mul i fileNames.length).symm
          _ ≤ I * fileNames.length :=
              Nat.mul_le_mul_right fileNames.length (Nat.succ_le_of_lt hiI)
    · have hiEq : i = I := by omega
      subst hiEq
      have hlen : (buildCmds F i fileNames).length ≤ i * fileNames.length + t := by
        rw [buildCmds_length]; exact Nat.le_add_right _ _
      rw [List.getElem?_append_right hlen, buildCmds_length,
        Nat.add_sub_cancel_left, List.getElem?_map]

/-- C2: for every iteration count `I` and triples list, the Job Queue
built at startup has exactly `I × T` entries (`T` the length of the
triples list), ordered with the iteration index as outer key and the
triple's list position as inner key: the entry at position
`i*T + t` is built from the `t`-th triple. -/
theorem job_queue_shape (F : Folders) (I : Nat) (fileNames : List Triple)
    (i t : Nat) (hi : i < I) (ht : t < fileNames.length) :
    (buildCmds F I fileNames).length = I * fileNames.length ∧
    (buildCmds F I fileNames)[i * fileNames.length + t]? =
      (fileNames[t]?).map (mkCmd F) :=
  ⟨buildCmds_length F I fileNames, buildCmds_get F I fileNames i t hi ht⟩

theorem job_queue_shape_witness :
    (buildCmds ⟨"I", "S", "C", "E"⟩ 2
        [("a1", "s1", "c1"), ("a2", "s2", "c2")]).length =
      2 * [(("a1" : String), ("s1" : String), ("c1" : String)),
        ("a2", "s2", "c2")].length ∧
    (buildCmds ⟨"I", "S", "C", "E"⟩ 2
        [("a1", "s1", "c1"), ("a2", "s2", "c2")])[1 *
          [(("a1" : String), ("s1" : String), ("c1" : String)),
            ("a2", "s2", "c2")].length + 1]? =
      ([(("a1" : String), ("s1" : String), ("c1" : String)),
        ("a2", "s2", "c2")][1]?).map (mkCmd ⟨"I", "S", "C", "E"⟩) :=
  job_queue_shape ⟨"I", "S", "C", "E"⟩ 2
    [("a1", "s1", "c1"), ("a2", "s2", "c2")] 1 1 (by decide) (by decide)

/-- Embedding of the triple named by the progress message of
`StartNew`: `FileNames[NextURLNo % (len(FileNames))]`. -/
def progressTriple (fileNames : List Triple) (k : Nat) : Option Triple :=
  fileNames[k % fileNames.length]?

/-- C10: the progress message printed at dispatch of the Job with
index `k` names the triple at position `k mod T` of the triples list,
and this is exactly the triple from which the `k`-th queue entry was
constructed, because the queue enumerates the triples list once per
iteration in order. -/
theorem progress_message_matches_queue (F : Folders) (I : Nat)
    (fileNames : List Triple) (k : Nat) (hk : k < I * fileNames.length) :
    (buildCmds F I fileNames)[k]? = (progressTriple fileNames k).map (mkCmd F) := by
  have hT : 0 < fileNames.length := by
    rcases Nat.eq_zero_or_pos fileNames.length with h | h
    · rw [h, Nat.mul_zero] at hk; exact absurd hk (Nat.not_lt_zero k)
    · exact h
  have hdiv : k / fileNames.length < I := (Nat.div_lt_iff_lt_mul hT).2 hk
  have hmod : k % fileNames.length < fileNames.length := Nat.mod_lt k hT
  have hgot := buildCmds_get F I fileNames (k / fileNames.length)
    (k % fileNames.length) hdiv hmod
  rw [Nat.div_add_mod'] at hgot
  exact hgot

theorem progress_message_matches_queue_witness :
    (buildCmds ⟨"I", "S", "C", "E"⟩ 2
        [("a1", "s1", "c1"), ("a2", "s2", "c2")])[3]? =
      (progressTriple [("a1", "s1", "c1"), ("a2", "s2", "c2")] 3).map
        (mkCmd ⟨"I", "S", "C", "E"⟩) :=
  progress_message_matches_queue ⟨"I", "S", "C", "E"⟩ 2
    [("a1", "s1", "c1"), ("a2", "s2", "c2")] 3 (by decide)

/-- A wall-clock reading as obtained by `datetime.now()`. The
subsequent `replace(tzinfo=timezone(timedelta(hours=8)))` only attaches
the fixed UTC+8 offset as metadata and alters none of these fields,
and the format string of `strftime` prints no timezone field, so the
seed string depends only on the fields below. -/
structure DT where
  year : Nat
  month : Nat
  day : Nat
  hour : Nat
  minute : Nat
  second : Nat
deriving Repr, DecidableEq

/-- Gregorian leap-year test. -/
def isLeap (y : Nat) : Bool := (y % 4 == 0 && y % 100 != 0) || y % 400 == 0

/-- Days in a month of a given year. -/
def daysInMonth (y m : Nat) : Nat :=
  if m = 2 then (if isLeap y then 29 else 28)
  else if m = 4 ∨ m = 6 ∨ m = 9 ∨ m = 11 then 30
  else 31

/-- Validity of a clock reading. -/
def ValidDT (t : DT) : Prop :=
  1 ≤ t.month ∧ t.month ≤ 12 ∧ 1 ≤ t.day ∧ t.day ≤ daysInMonth t.year t.month ∧
    t.hour < 24 ∧ t.minute < 60 ∧ t.second < 60

instance (t : DT) : Decidable (ValidDT t) := by
  unfold ValidDT
  infer_instance

/-- The clock reading one second later, with calendar rollover. -/
def nextSecond (t : DT) : DT :=
  if t.second + 1 < 60 then { t with second := t.second + 1 }
  else if t.minute + 1 < 60 then { t with second := 0, minute := t.minute + 1 }
  else if t.hour + 1 < 24 then { t with second := 0, minute := 0, hour := t.hour + 1 }
  else if t.day + 1 ≤ daysInMonth t.year t.month then
    { t with second := 0, minute := 0, hour := 0, day := t.day + 1 }
  else if t.month + 1 ≤ 12 then
    { t with second := 0, minute := 0, hour := 0, day := 1, month := t.month + 1 }
  else ⟨t.year + 1, 1, 1, 0, 0, 0⟩

/-- The decimal digit character of `n % 10`. -/
def digitChar (n : Nat) : Char := Char.ofNat (48 + n % 10)

/-- A zero-padded two-digit decimal rendering, as `strftime` produces
for each of the fields month, day, hour, minute, second (every such
field value is below 100). -/
def pad2 (n : Nat) : String := String.mk [digitChar (n / 10), digitChar n]

/-- Embedding of
`datetime.now().replace(tzinfo=timezone(timedelta(hours=8))).strftime("%m%d%H%M%S")`. -/
def strftimeSeed (t : DT) : String :=
  pad2 t.month ++ pad2 t.day ++ pad2 t.hour ++ pad2 t.minute ++ pad2 t.second

/-- Embedding of the seed append of `StartNew`:
`cmds[NextURLNo].append(seed)`. -/
def dispatchCmd (cmd : List String) (t : DT) : List String :=
  cmd ++ [strftimeSeed t]

/-- The seconds field of a seed string: its last two characters. -/
def secondsField (s : String) : String := String.mk (s.data.drop 8)

theorem pad2_succ_ne : ∀ s : Nat, s < 60 → pad2 ((s + 1) % 60) ≠ pad2 s := by decide

theorem nextSecond_second (t : DT) (h : t.second < 60) :
    (nextSecond t).second = (t.second + 1) % 60 := by
  unfold nextSecond
  by_cases h1 : t.second + 1 < 60
  · rw [if_pos h1]
    exact (Nat.mod_eq_of_lt h1).symm
  · have h59 : t.second = 59 := by omega
    rw [if_neg h1, h59]
    have hmod : (59 + 1) % 60 = 0 := by decide
    rw [hmod]
    repeat' split
    all_goals rfl

/-- C7: at every dispatch, the string appended as the final argument of
the Job is the wall-clock reading formatted as the five two-digit
fields month, day, hour, minute, second (the attached fixed UTC+8
offset changes no character of that string); two dispatches whose
clock readings are one second apart produce distinct seed strings that
differ in the seconds field. -/
theorem seed_format_and_distinct (cmd : List String) (t : DT) (h : ValidDT t) :
    (dispatchCmd cmd t).getLast? = some (strftimeSeed t) ∧
    strftimeSeed t =
      pad2 t.month ++ pad2 t.day ++ pad2 t.hour ++ pad2 t.minute ++ pad2 t.second ∧
    (strftimeSeed t).length = 10 ∧
    secondsField (strftimeSeed t) = pad2 t.second ∧
    secondsField (strftimeSeed (nextSecond t)) ≠ secondsField (strftimeSeed t) ∧
    strftimeSeed (nextSecond t) ≠ strftimeSeed t := by
  have hsec : t.second < 60 := h.2.2.2.2.2.2
  have hns : (nextSecond t).second = (t.second + 1) % 60 := nextSecond_second t hsec
  have hfield : ∀ u : DT, secondsField (strftimeSeed u) = pad2 u.second := fun u => rfl
  refine ⟨List.getLast?_concat cmd, rfl, rfl, rfl, ?_, ?_⟩
  · rw [hfield, hfield, hns]
    exact pad2_succ_ne t.second hsec
  · intro he
    have hsf : secondsField (strftimeSeed (nextSecond t)) =
        secondsField (strftimeSeed t) := by rw [he]
    rw [hfield, hfield, hns] at hsf
    exact pad2_succ_ne t.second hsec hsf

theorem seed_format_and_distinct_witness :
    (dispatchCmd ["dotnet", "run"] ⟨2024, 7, 3, 12, 30, 59⟩).getLast? =
      some (strftimeSeed ⟨2024, 7, 3, 12, 30, 59⟩) ∧
    strftimeSeed ⟨2024, 7, 3, 12, 30, 59⟩ =
      pad2 7 ++ pad2 3 ++ pad2 12 ++ pad2 30 ++ pad2 59 ∧
    (strftimeSeed ⟨2024, 7, 3, 12, 30, 59⟩).length = 10 ∧
    secondsField (strftimeSeed ⟨2024, 7, 3, 12, 30, 59⟩) = pad2 59 ∧
    secondsField (strftimeSeed (nextSecond ⟨2024, 7, 3, 12, 30, 59⟩)) ≠
      secondsField (strftimeSeed ⟨2024, 7, 3, 12, 30, 59⟩) ∧
    strftimeSeed (nextSecond ⟨2024, 7, 3, 12, 30, 59⟩) ≠
      strftimeSeed ⟨2024, 7, 3, 12, 30, 59⟩ :=
  seed_format_and_distinct ["dotnet", "run"] ⟨2024, 7, 3, 12, 30, 59⟩ (by decide)

/-- A delimited data file as `pandas.read_csv` presents it: the column
names and the rows of cell values (each cell rendered back to text by
`to_csv`, so cells are modelled as strings). -/
structure DataFrame where
  cols : List String
  rows : List (List String)
deriving Repr, DecidableEq

/-- Embedding of the per-row update of `fixFootprints.py`: the
Instance cell becomes the old Instance value, then the letter r, then
the NBots value; every other cell is untouched. -/
def fixRow (cols row : List String) : List String :=
  row.set (cols.indexOf "Instance")
    (row.getD (cols.indexOf "Instance") "" ++ "r" ++ row.getD (cols.indexOf "NBots") "")

/-- Embedding of the per-file step of `fixFootprints.py`: when both the
NBots and Instance columns are present, every row is updated and the
file is rewritten (flag `true`); otherwise the warning is printed and
the file is skipped, its contents unchanged (flag `false`). -/
def fixFrame (df : DataFrame) : DataFrame × Bool :=
  if "NBots" ∈ df.cols ∧ "Instance" ∈ df.cols then
    (⟨df.cols, df.rows.map (fixRow df.cols)⟩, true)
  else (df, false)

/-- C9: for every input file of the fix-up script: if the columns
NBots and Instance are both present, every row's Instance value is
replaced by the concatenation of the old Instance value, the character
r, and the row's NBots value — all other cells unchanged — and the
file is rewritten; otherwise a warning is printed and the file is
skipped with its contents left unchanged. -/
theorem fix_footprints_behavior (df : DataFrame) :
    (("NBots" ∈ df.cols ∧ "Instance" ∈ df.cols) →
      (fixFrame df).2 = true ∧
      (fixFrame df).1.cols = df.cols ∧
      (fixFrame df).1.rows = df.rows.map (fixRow df.cols) ∧
      ∀ row ∈ df.rows, row.length = df.cols.length →
        (fixRow df.cols row)[df.cols.indexOf "Instance"]? =
          some (row.getD (df.cols.indexOf "Instance") "" ++ "r" ++
            row.getD (df.cols.indexOf "NBots") "") ∧
        ∀ j, j ≠ df.cols.indexOf "Instance" → (fixRow df.cols row)[j]? = row[j]?) ∧
    (¬("NBots" ∈ df.cols ∧ "Instance" ∈ df.cols) → fixFrame df = (df, false)) := by
  constructor
  · intro h
    rw [fixFrame, if_pos h]
    refine ⟨rfl, rfl, rfl, ?_⟩
    intro row _ hrow
    have hidx : df.cols.indexOf "Instance" < row.length := by
      rw [hrow]
      exact List.indexOf_lt_length.2 h.2
    constructor
    · rw [fixRow]
      exact List.getElem?_set_self (by simpa using hidx)
    · intro j hj
      rw [fixRow]
      exact List.getElem?_set_ne (fun he => hj he.symm)
  · intro h
    rw [fixFrame, if_neg h]

theorem fix_footprints_behavior_witness :
    ((fixFrame ⟨["Instance", "NBots"], [["Sv5", "60"]]⟩).2 = true ∧
      (fixFrame ⟨["Instance", "NBots"], [["Sv5", "60"]]⟩).1.cols =
        ["Instance", "NBots"] ∧
      (fixFrame ⟨["Instance", "NBots"], [["Sv5", "60"]]⟩).1.rows =
        [["Sv5", "60"]].map (fixRow ["Instance", "NBots"]) ∧
      ∀ row ∈ [["Sv5", "60"]], row.length = (["Instance", "NBots"] : List String).length →
        (fixRow ["Instance", "NBots"] row)[(["Instance", "NBots"] : List String).indexOf "Instance"]? =
          some (row.getD ((["Instance", "NBots"] : List String).indexOf "Instance") "" ++ "r" ++
            row.getD ((["Instance", "NBots"] : List String).indexOf "NBots") "") ∧
        ∀ j, j ≠ (["Instance", "NBots"] : List String).indexOf "Instance" →
          (fixRow ["Instance", "NBots"] row)[j]? = row[j]?) ∧
    (fixFrame ⟨["Speed"], [["1"]]⟩ = (⟨["Speed"], [["1"]]⟩, false)) :=
  ⟨(fix_footprints_behavior ⟨["Instance", "NBots"], [["Sv5", "60"]]⟩).1 (by decide),
   (fix_footprints_behavior ⟨["Speed"], [["1"]]⟩).2 (by decide)⟩
